import Mathlib

/-!
Shallow embedding of the daq-radio telemetry pipeline core.

Sources embedded here:
* `src/universal-telemetry-software/src/data.py` — `CANMessage`, the
  `udp_sender` ring buffer, `handle_resend`, `udp_receiver`, and
  `missing_reporter`.
* `src/pecan/app.py` and `src/pecan/Backend/app.py` — `decode_can_message`,
  the history append in `named_pipe_listener` / `import_can_message`,
  `sse_broadcast`, and `update_table`.

Machine integers are modelled as `Nat` (bytes carry an explicit `< 256`
hypothesis where it matters); Python floats (frame timestamps, wall-clock
times) are modelled as `ℚ`; Python `dict`/`set` state as `Finset`/lists.
-/

namespace DaqRadio

/-- A raw CAN frame as built by `CANMessage.__init__` in `data.py`:
`timestamp` (a Python float, modelled as `ℚ`), `can_id` (uint32),
`data` (the 8 payload bytes, modelled as a list of `Nat`). -/
structure CANMessage where
  timestamp : ℚ
  can_id : ℕ
  data : List ℕ
deriving DecidableEq, Repr

/-! ## Receiver (`udp_receiver` in `data.py`, lines 195–249) -/

/-- Big-endian byte-list to natural number, as `struct.unpack` reads the
`!Q` and `!H` header fields. -/
def beNat (bs : List ℕ) : ℕ :=
  bs.foldl (fun acc b => acc * 256 + b) 0

/-- The sequence field of a datagram: `struct.unpack("!QH", data[:10])`,
first component (bytes 0–7, big-endian). -/
def seqOf (data : List ℕ) : ℕ := beNat (data.take 8)

/-- The count field of a datagram: `struct.unpack("!QH", data[:10])`,
second component (bytes 8–9, big-endian). -/
def countOf (data : List ℕ) : ℕ := beNat ((data.drop 8).take 2)

/-- The frame-extraction loop of `udp_receiver` (lines 236–246):
`for _ in range(count): if offset + 20 > len(data): break;
take data[offset:offset+20]; offset += 20`.  Each emitted chunk is the
20-byte slice handed to `CANMessage.unpack`. -/
def chunkLoop (data : List ℕ) (offset : ℕ) : ℕ → List (List ℕ)
  | 0 => []
  | n + 1 =>
      if offset + 20 > data.length then []
      else (data.drop offset).take 20 :: chunkLoop data (offset + 20) n

/-- Receiver gap-tracking state (`run_base` locals `expected_seq`,
`missing_seqs`). `expected` is `None` until the first datagram. -/
structure RecvState where
  expected : Option ℕ
  missing : Finset ℕ
deriving DecidableEq

/-- The eviction inside the gap loop (lines 227–228):
`if len(missing_seqs) > 1000: missing_seqs.remove(min(missing_seqs))`,
performed after each `add`. -/
def addMissing (m : Finset ℕ) (s : ℕ) : Finset ℕ :=
  let m1 := insert s m
  if h : 1000 < m1.card then m1.erase (m1.min' (Finset.card_pos.mp (by omega))) else m1

/-- The gap-insertion loop (lines 224–228): `for s in range(lo, hi):
missing_seqs.add(s); …evict…`. -/
def addGapRange (m : Finset ℕ) (lo hi : ℕ) : Finset ℕ :=
  (List.range (hi - lo)).foldl (fun acc i => addMissing acc (lo + i)) m

/-- The header/state part of one `udp_receiver` iteration for a datagram
whose sequence field is `seq` (lines 216–233):
anchor `expected_seq` on first datagram, insert `[expected, seq)` into the
missing set when `seq > expected`, discard `seq` from the missing set, and
set `expected_seq ← max(expected_seq, seq + 1)`. -/
def seqStep (st : RecvState) (seq : ℕ) : RecvState :=
  let exp0 := st.expected.getD seq
  let m1 := if exp0 < seq then addGapRange st.missing exp0 seq else st.missing
  { expected := some (max exp0 (seq + 1)), missing := m1.erase seq }

/-- One full `udp_receiver` iteration on a received datagram (lines
211–246): datagrams shorter than 10 bytes are skipped (`continue`);
otherwise the header is unpacked, the gap state updated via `seqStep`,
and up to `count` 20-byte frame chunks are extracted. Returns the new
state and the list of extracted frame chunks (`msgs_to_publish`). -/
def recvStep (st : RecvState) (data : List ℕ) : RecvState × List (List ℕ) :=
  if data.length < 10 then (st, [])
  else (seqStep st (seqOf data), chunkLoop data 10 (countOf data))

/-- One loop turn of `udp_receiver` threaded through an accumulator of
published outputs: run `recvStep`, then record `msgs_to_publish` exactly
when the code calls `self.publish(REDIS_CHANNEL, …)` (lines 248–249:
publish only if `msgs_to_publish` is non-empty). -/
def recvManyStep (acc : RecvState × List (List (List ℕ))) (d : List ℕ) :
    RecvState × List (List (List ℕ)) :=
  let r := recvStep acc.1 d
  (r.1, if r.2.isEmpty then acc.2 else acc.2 ++ [r.2])

/-- Sequential delivery of several datagrams to `udp_receiver`, collecting
the published outputs in order. -/
def recvMany (st : RecvState) (ds : List (List ℕ)) :
    RecvState × List (List (List ℕ)) :=
  ds.foldl recvManyStep (st, [])

/-- The receiver state before any datagram has arrived. -/
def freshRecv : RecvState := ⟨none, ∅⟩

/-! ## Sender ring buffer (`udp_sender` in `data.py`, lines 150–154) -/

/-- One entry of `self.buffer`: the tuple
`(self.seq_num, batch, time.time())` appended at line 152. -/
structure RingEntry where
  seq : ℕ
  batch : List CANMessage
  inserted : ℚ
deriving DecidableEq

/-- The eviction loop at lines 153–154: `while self.buffer and
time.time() - self.buffer[0][2] > BUFFER_DURATION: self.buffer.popleft()`
(`BUFFER_DURATION = 60`), with the wall clock modelled as the single
value `now`. -/
def sweepOld : List RingEntry → ℚ → List RingEntry
  | [], _ => []
  | e :: rest, now =>
      if 60 < now - e.inserted then sweepOld rest now else e :: rest

/-- Lines 152–154 of `udp_sender`: append the new `(seq, batch, now)`
entry, then run the front-eviction loop.  This is the ONLY place the ring
is ever swept. -/
def emitRetain (buf : List RingEntry) (seq : ℕ) (batch : List CANMessage)
    (now : ℚ) : List RingEntry :=
  sweepOld (buf ++ [⟨seq, batch, now⟩]) now

/-! ## Resend server (`handle_resend` in `data.py`, lines 160–183) -/

/-- Lowercase hex digit of a value `< 16`, as produced by `bytes.hex()`. -/
def hexDigit (n : ℕ) : Char :=
  if n < 10 then Char.ofNat (48 + n) else Char.ofNat (87 + n)

/-- `bytes.hex()` on one byte: two lowercase hex digits. -/
def byteToHex (b : ℕ) : List Char := [hexDigit (b / 16), hexDigit (b % 16)]

/-- `m.data.hex()` (line 174): every payload byte as two lowercase hex
digits, concatenated. -/
def bytesToHex (bs : List ℕ) : List Char := bs.flatMap byteToHex

/-- Value of one hex digit, as `bytes.fromhex` reads it (the encoder only
ever emits `0`–`9` and lowercase `a`–`f`). -/
def hexVal (c : Char) : ℕ :=
  if 97 ≤ c.toNat then c.toNat - 87 else c.toNat - 48

/-- `bytes.fromhex` (line 273 of `missing_reporter`): consume the hex
string two digits at a time. -/
def hexToBytes : List Char → List ℕ
  | a :: b :: rest => (hexVal a * 16 + hexVal b) :: hexToBytes rest
  | _ => []

/-- One element of the `msgs` array `handle_resend` serializes at line
174: `{"t": m.timestamp, "id": m.can_id, "d": m.data.hex()}`. -/
structure ResendMsg where
  t : ℚ
  id : ℕ
  d : List Char
deriving DecidableEq

/-- Line 174 of `handle_resend`: serialize one retained frame. -/
def encodeMsg (m : CANMessage) : ResendMsg :=
  ⟨m.timestamp, m.can_id, bytesToHex m.data⟩

/-- The `buffer_lookup` dict of line 169,
`{item[0]: item[1] for item in self.buffer}`, applied to one key: a later
entry with the same sequence overwrites an earlier one, so the lookup
returns the LAST matching entry's batch. -/
def lookupRing (buf : List RingEntry) (seq : ℕ) : Option (List CANMessage) :=
  ((buf.filter (fun e => e.seq = seq)).getLast?).map (fun e => e.batch)

/-- Lines 168–175 of `handle_resend`: for each requested sequence found in
`buffer_lookup`, append `{"seq": seq, "msgs": [...]}` to the response;
sequences absent from the ring are omitted.  No sweeping happens here. -/
def serveResend (buf : List RingEntry) (req : List ℕ) :
    List (ℕ × List ResendMsg) :=
  req.filterMap (fun s => (lookupRing buf s).map (fun b => (s, b.map encodeMsg)))

/-! ## Recovery client (`missing_reporter` in `data.py`, lines 252–280) -/

/-- Python `int(x)` truncation toward zero, applied to a rational. -/
def pyInt (q : ℚ) : ℤ := if 0 ≤ q then ⌊q⌋ else -⌊-q⌋

/-- One object of the JSON array published to `REDIS_CHANNEL`:
`{"time": int(t*1000), "canId": id, "data": [...]}` — the shape built both
by `udp_receiver` (lines 241–245) and by `missing_reporter` (line 273). -/
structure PubRec where
  time : ℤ
  canId : ℕ
  data : List ℕ
deriving DecidableEq

/-- What `udp_receiver` would publish for a frame delivered directly
(lines 241–245): `{"time": int(msg.timestamp*1000), "canId": msg.can_id,
"data": list(msg.data)}`. -/
def publishedMsg (m : CANMessage) : PubRec :=
  ⟨pyInt (m.timestamp * 1000), m.can_id, m.data⟩

/-- Line 273 of `missing_reporter`: decode one resent frame,
`{"time": int(m.t*1000), "canId": m.id, "data": list(bytes.fromhex(m.d))}`. -/
def decodeClientMsg (r : ResendMsg) : PubRec :=
  ⟨pyInt (r.t * 1000), r.id, hexToBytes r.d⟩

/-- Lines 270–275 of `missing_reporter`, one response entry: if its
sequence is still missing, publish the decoded frames and remove the
sequence from the missing set; otherwise ignore it. -/
def clientStep (acc : Finset ℕ × List (List PubRec)) (item : ℕ × List ResendMsg) :
    Finset ℕ × List (List PubRec) :=
  if item.1 ∈ acc.1
  then (acc.1.erase item.1, acc.2 ++ [item.2.map decodeClientMsg])
  else acc

/-- The `for item in resends` loop of `missing_reporter` (lines 270–275):
returns the missing set after the cycle and the per-sequence frame lists
injected (published to `REDIS_CHANNEL`), in order. -/
def clientProcess (missing : Finset ℕ) (resends : List (ℕ × List ResendMsg)) :
    Finset ℕ × List (List PubRec) :=
  resends.foldl clientStep (missing, [])

/-! ## Decoder (`decode_can_message` in `pecan/app.py` lines 50–78 and
`pecan/Backend/app.py` lines 115–143; the two copies are identical). -/

/-- One DBC message object as the decoder uses it: its `name` and its
`decode(data, allow_truncated=True)` method, which either returns the
signal mapping or raises with some reason string. -/
structure DbMessage where
  name : String
  decode : List ℕ → Except String (List (String × ℚ))

/-- The loaded `cantools` database as `decode_can_message` uses it.
`getMessageByFrameId` models `db.get_message_by_frame_id(can_id)`
returning the message, or `none` when the lookup raises; `lookupError`
models `str(e)` for the exception that lookup raises in that case
(for `cantools` a `KeyError` carrying the frame id, so `str(e)` is the
id's repr — not any fixed English sentence). -/
structure Database where
  getMessageByFrameId : ℕ → Option DbMessage
  lookupError : ℕ → String

/-- The decoded record dict returned by `decode_can_message`; `error` is
`none` exactly when the code omits the `'error'` key. -/
structure DecodedRecord where
  can_id : ℕ
  message_name : String
  signals : List (String × ℚ)
  raw_data : List ℕ
  error : Option String
deriving DecidableEq

/-- `decode_can_message(can_id, data)`: with no database, a `'Raw'` record
(with error `'No DBC file loaded'`); with a database, look up the frame
id — a lookup exception or a decode exception both fall into the
`except` block, producing an `'Unknown'` record carrying `str(e)`. -/
def decode_can_message (db : Option Database) (can_id : ℕ) (data : List ℕ) :
    DecodedRecord :=
  match db with
  | none => ⟨can_id, "Raw", [], data, some "No DBC file loaded"⟩
  | some d =>
      match d.getMessageByFrameId can_id with
      | none => ⟨can_id, "Unknown", [], data, some (d.lookupError can_id)⟩
      | some m =>
          match m.decode data with
          | .ok sig => ⟨can_id, m.name, sig, data, none⟩
          | .error e => ⟨can_id, "Unknown", [], data, some e⟩

/-! ## History append (`named_pipe_listener` lines 179–185 of
`pecan/Backend/app.py` / 107–111 of `pecan/app.py`, and
`import_can_message` lines 267–271 of `pecan/app.py` / 420–423 of
`pecan/Backend/app.py`; all four sites run the same snippet). -/

/-- `CAN_MESSAGES.append(decoded); if len(CAN_MESSAGES) >
MESSAGE_HISTORY_LIMIT: CAN_MESSAGES.pop(0)` with
`MESSAGE_HISTORY_LIMIT = 1000`. -/
def appendRecord (hist : List DecodedRecord) (r : DecodedRecord) :
    List DecodedRecord :=
  let h := hist ++ [r]
  if 1000 < h.length then h.tail else h

/-! ## SSE broker (`pecan/Backend/app.py` lines 50–71) -/

/-- One registered SSE client: the per-connection `Queue(maxsize=1000)`
created by `_sse_subscribe`, tagged with an identity so distinct clients
with equal contents stay distinguishable.  `queue` lists the pending
payloads, oldest first. -/
structure Subscription where
  qid : ℕ
  queue : List String
deriving DecidableEq

/-- `q.put_nowait(payload)` on a `Queue(maxsize=1000)`: enqueue when there
is room, otherwise raise `Full` — which `sse_broadcast` swallows, leaving
the queue unchanged. -/
def putNowait (q : List String) (payload : String) : List String :=
  if q.length < 1000 then q ++ [payload] else q

/-- `sse_broadcast(payload)` (lines 62–71): snapshot the client set and
try a non-blocking enqueue on every client, dropping the payload for any
client whose queue is full.  No client is ever removed. -/
def sse_broadcast (clients : List Subscription) (payload : String) :
    List Subscription :=
  clients.map (fun c => { c with queue := putNowait c.queue payload })

/-! ## History query (`update_table` in `pecan/app.py` lines 126–191 and
`pecan/Backend/app.py` lines 214–293; identical logic). -/

/-- Filter mode dropdown values. Any value other than the three named
modes falls into the `else` (`original_time`) branch, as in the code. -/
inductive FilterMode
  | all
  | count
  | received_time
  | original_time
deriving DecidableEq

/-- A history record as `update_table` reads it: `can_id`,
`message_name`, and the two timestamps (`received_timestamp` and
`timestamp`), modelled as rational epoch seconds so that the `datetime`
comparisons become rational comparisons. -/
structure QMsg where
  can_id : ℕ
  message_name : String
  received : ℚ
  orig : ℚ
deriving DecidableEq

/-- Python truthiness of an optional string input (`time_range or 600`
analogue for the text filters: `None` and `""` are falsy). -/
def truthyStr : Option String → Bool
  | none => false
  | some s => s ≠ ""

/-- Decimal string of a natural number, for
`str(msg['can_id']) == can_id`. -/
def natStr (n : ℕ) : String := toString n

/-- `update_table(n, time_range, can_id, message_name, filter_mode)`
(minus the display formatting): select the window per `filter_mode`
(`time_range or 600` makes `None`/`0` default to 600), apply the id/name
filters when either is truthy, reverse to newest-first, and truncate to
100 when longer (`if len(filtered) > 100: filtered = filtered[:100]`).
The wall clock `datetime.now()` is the parameter `now`.  There is no
`limit` parameter anywhere in the code. -/
def update_table (messages : List QMsg) (time_range : Option ℕ)
    (can_id : Option String) (message_name : Option String)
    (filter_mode : Option FilterMode) (now : ℚ) : List QMsg :=
  let tr : ℕ := match time_range with
    | none => 600
    | some t => if t = 0 then 600 else t
  let fm := filter_mode.getD .received_time
  let windowed : List QMsg :=
    match fm with
    | .all => messages
    | .count => messages.drop (messages.length - min tr messages.length)
    | .received_time => messages.filter (fun m => now - (tr : ℚ) ≤ m.received)
    | .original_time => messages.filter (fun m => now - (tr : ℚ) ≤ m.orig)
  let filtered : List QMsg :=
    if truthyStr can_id || truthyStr message_name then
      windowed.filter (fun m =>
        (!truthyStr can_id || natStr m.can_id = can_id.getD "") &&
        (!truthyStr message_name || m.message_name = message_name.getD ""))
    else windowed
  let rev := filtered.reverse
  if 100 < rev.length then rev.take 100 else rev

/-- The query semantics the spec describes for the truncation step
(spec §4.7: "Result is reversed (newest first) then truncated to `limit`
(default 100, max 500)"), stated as a definition so it can be compared
with `update_table`: same windowing, but truncation at
`min limit 500` with `limit` defaulting to 100. -/
def specLimitQuery (messages : List QMsg) (time_range : Option ℕ)
    (can_id : Option String) (message_name : Option String)
    (filter_mode : Option FilterMode) (now : ℚ) (limit : Option ℕ) :
    List QMsg :=
  let tr : ℕ := match time_range with
    | none => 600
    | some t => if t = 0 then 600 else t
  let fm := filter_mode.getD .received_time
  let windowed : List QMsg :=
    match fm with
    | .all => messages
    | .count => messages.drop (messages.length - min tr messages.length)
    | .received_time => messages.filter (fun m => now - (tr : ℚ) ≤ m.received)
    | .original_time => messages.filter (fun m => now - (tr : ℚ) ≤ m.orig)
  let filtered : List QMsg :=
    if truthyStr can_id || truthyStr message_name then
      windowed.filter (fun m =>
        (!truthyStr can_id || natStr m.can_id = can_id.getD "") &&
        (!truthyStr message_name || m.message_name = message_name.getD ""))
    else windowed
  filtered.reverse.take (min (limit.getD 100) 500)

/-! ## Manual import (`import_can_message` in `pecan/app.py` lines
246–276 and `pecan/Backend/app.py` lines 397–438; identical admission
logic). -/

/-- The JSON value found in the request's `"id"` field. -/
inductive IdVal
  | int (n : ℤ)
  | str (s : String)
deriving DecidableEq

/-- The import request body: optional `"id"`, `"data"`, `"time"`. -/
structure ImportReq where
  id : Option IdVal
  data : Option (List ℤ)
  time : Option ℤ
deriving DecidableEq

/-- Python truthiness of `data.get("id")`: absent (`None`), the integer
`0`, and the empty string are falsy; every other value — including the
non-empty string `"0"` — is truthy. -/
def truthyId : Option IdVal → Bool
  | none => false
  | some (.int n) => n ≠ 0
  | some (.str s) => s ≠ ""

/-- Python truthiness of `data.get("data")`: absent or the empty list is
falsy. -/
def truthyData : Option (List ℤ) → Bool
  | none => false
  | some l => l ≠ []

/-- Value of one decimal digit character, `none` otherwise. -/
def decDigit? (c : Char) : Option ℕ :=
  if 48 ≤ c.toNat ∧ c.toNat ≤ 57 then some (c.toNat - 48) else none

/-- Parse a non-empty all-decimal character list. -/
def parseDec : List Char → Option ℕ
  | [] => none
  | cs => cs.foldl
      (fun acc c => match acc, decDigit? c with
        | some a, some d => some (a * 10 + d)
        | _, _ => none)
      (some 0)

/-- Value of one lowercase/uppercase hex digit character. -/
def hexDigit? (c : Char) : Option ℕ :=
  if 48 ≤ c.toNat ∧ c.toNat ≤ 57 then some (c.toNat - 48)
  else if 97 ≤ c.toNat ∧ c.toNat ≤ 102 then some (c.toNat - 87)
  else if 65 ≤ c.toNat ∧ c.toNat ≤ 70 then some (c.toNat - 55)
  else none

/-- Parse a non-empty all-hex character list. -/
def parseHex : List Char → Option ℕ
  | [] => none
  | cs => cs.foldl
      (fun acc c => match acc, hexDigit? c with
        | some a, some d => some (a * 16 + d)
        | _, _ => none)
      (some 0)

/-- `int(s, 0)` on the id strings the endpoint documents (non-negative
decimal or `0x`-prefixed hex, no sign/underscores): `"0"` parses to `0`,
`"0x…"` parses as hex, a nonzero-leading digit string parses as decimal;
anything else (including a base-0-invalid leading zero) raises, which the
caller turns into a 400. -/
def pyIntBase0 (s : String) : Option ℕ :=
  match s.data with
  | '0' :: 'x' :: rest => parseHex rest
  | '0' :: 'X' :: rest => parseHex rest
  | ['0'] => some 0
  | c :: rest => if c = '0' then none else parseDec (c :: rest)
  | [] => none

/-- `bytes(raw_data)`: succeeds iff every element is in `[0, 256)`;
otherwise raises, which the caller turns into a 400. -/
def pyBytes (l : List ℤ) : Option (List ℕ) :=
  l.foldr
    (fun (b : ℤ) (acc : Option (List ℕ)) => match acc with
      | none => none
      | some bs => if 0 ≤ b ∧ b < 256 then some (b.toNat :: bs) else none)
    (some [])

/-- Outcome of `POST /api/import`: `created` is the 201 path (carrying the
record appended to history), `invalidData` the final
`400 {"message": "Invalid data"}`, `decodingFailed` the
`400 {"message": "Decoding failed: …"}` from the `except` block. -/
inductive ImportResult
  | created (rec : DecodedRecord)
  | invalidData
  | decodingFailed
deriving DecidableEq

/-- `import_can_message` admission and decode (lines 246–276 of
`pecan/app.py`): `if can_id_str and raw_data:` — both fields must be
truthy — then `int(can_id_str, 0)` (a JSON integer id raises `TypeError`
here, since `int` with an explicit base requires a string),
`bytes(raw_data)`, `decode_can_message`, append; any exception yields the
`Decoding failed` 400, and a falsy field yields the `Invalid data` 400. -/
def import_can_message (db : Option Database) (req : ImportReq) : ImportResult :=
  if truthyId req.id && truthyData req.data then
    match req.id with
    | some (.str s) =>
        match pyIntBase0 s with
        | none => .decodingFailed
        | some can_id =>
            match pyBytes (req.data.getD []) with
            | none => .decodingFailed
            | some bs => .created (decode_can_message db can_id bs)
    | _ => .decodingFailed
  else .invalidData

/-! ## Concrete values used in witnesses and counterexamples -/

/-- A well-formed 30-byte datagram: seq = 1, count = 1, one 20-byte frame. -/
def dupDatagram : List ℕ :=
  [0, 0, 0, 0, 0, 0, 0, 1, 0, 1] ++ List.replicate 20 5

/-- A well-formed 10-byte datagram: seq = 2, count = 0 (10 + 20·0 = 10). -/
def headerOnlyDatagram : List ℕ := [0, 0, 0, 0, 0, 0, 0, 2, 0, 0]

/-- A malformed 10-byte datagram: seq = 1 but count = 1, so its length 10
differs from 10 + 20·1 = 30. -/
def shortCountDatagram : List ℕ := [0, 0, 0, 0, 0, 0, 0, 1, 0, 1]

/-- A sample frame retained in the ring. -/
def msg0 : CANMessage := ⟨2, 291, [170, 0, 0, 0, 0, 0, 0, 5]⟩

/-- A sample retained batch and ring for the recovery round trip. -/
def batch7 : List CANMessage := [⟨1, 3, [170, 5, 0, 0, 0, 0, 0, 255]⟩]

/-- A ring holding `batch7` under sequence 7, inserted at wall time 0. -/
def buf7 : List RingEntry := [⟨7, batch7, 0⟩]

/-- A database in which every frame-id lookup raises, with `str(e)` being
the id's text — the `KeyError` behaviour of `cantools`'
`get_message_by_frame_id` (a plain dict access). -/
def missTestDb : Database := ⟨fun _ => none, fun i => natStr i⟩

/-- A database whose message 3 exists but whose decoder always raises
with reason `"boom"`. -/
def failTestDb : Database :=
  ⟨fun i => if i = 3 then some ⟨"Msg3", fun _ => .error "boom"⟩ else none,
   fun i => natStr i⟩

/-- An import request whose `"id"` is the STRING `"0"` (truthy in
Python) with a full 8-byte payload. -/
def reqId0Str : ImportReq := ⟨some (.str "0"), some [1, 2, 3, 4, 5, 6, 7, 8], none⟩

/-- A minimal decoded record, used to build concrete histories. -/
def rec0 : DecodedRecord := ⟨0, "Raw", [], [], none⟩

/-- A 150-record history for the query-truncation counterexample. -/
def msgs150 : List QMsg := List.replicate 150 ⟨1, "A", 0, 0⟩

/-- A subscriber with an empty queue. -/
def subA : Subscription := ⟨0, []⟩

/-- A stuck subscriber whose queue is full (1000 pending payloads). -/
def subB : Subscription := ⟨1, List.replicate 1000 ""⟩

/-! ## Theorems -/

/-- Unfolding equation for `decode_can_message` on a loaded database. -/
lemma decode_some_eq (d : Database) (i : ℕ) (p : List ℕ) :
    decode_can_message (some d) i p =
      match d.getMessageByFrameId i with
      | none => ⟨i, "Unknown", [], p, some (d.lookupError i)⟩
      | some m =>
          match m.decode p with
          | .ok sig => ⟨i, m.name, sig, p, none⟩
          | .error e => ⟨i, "Unknown", [], p, some e⟩ := rfl

/-- Unfolding equation for `decode_can_message` when the id is absent
from the database. -/
lemma decode_missing_eq (d : Database) (i : ℕ) (p : List ℕ)
    (h : d.getMessageByFrameId i = none) :
    decode_can_message (some d) i p = ⟨i, "Unknown", [], p, some (d.lookupError i)⟩ := by
  rw [decode_some_eq, h]

/-- Unfolding equation for `decode_can_message` when the id is found. -/
lemma decode_found_eq (d : Database) (i : ℕ) (p : List ℕ) (m : DbMessage)
    (h : d.getMessageByFrameId i = some m) :
    decode_can_message (some d) i p =
      match m.decode p with
      | .ok sig => ⟨i, m.name, sig, p, none⟩
      | .error e => ⟨i, "Unknown", [], p, some e⟩ := by
  rw [decode_some_eq, h]

/-- C6 (amended): `decode_can_message` is total — for every
`(can_id, payload)` it returns exactly one record, preserving the id and
raw bytes; with no database the record is `"Raw"` with empty signals;
with a database and an unknown id it is `"Unknown"` with empty signals
and the stringified lookup exception in `error` (not the fixed string
`"id not in database"`); on a decoder exception it is `"Unknown"` with
empty signals and the failure reason in `error`. -/
theorem decode_total_shape (db : Option Database) (can_id : ℕ) (data : List ℕ) :
    (decode_can_message db can_id data).can_id = can_id ∧
    (decode_can_message db can_id data).raw_data = data ∧
    (db = none →
      decode_can_message db can_id data =
        ⟨can_id, "Raw", [], data, some "No DBC file loaded"⟩) ∧
    (∀ d : Database, db = some d → d.getMessageByFrameId can_id = none →
      decode_can_message db can_id data =
        ⟨can_id, "Unknown", [], data, some (d.lookupError can_id)⟩) ∧
    (∀ (d : Database) (m : DbMessage) (e : String), db = some d →
      d.getMessageByFrameId can_id = some m → m.decode data = .error e →
      decode_can_message db can_id data = ⟨can_id, "Unknown", [], data, some e⟩) := by
  refine ⟨?_, ?_, ?_, ?_, ?_⟩
  · rcases db with _ | d
    · rfl
    · rcases hlk : d.getMessageByFrameId can_id with _ | m
      · rw [decode_missing_eq d can_id data hlk]
      · rcases hdec : m.decode data with sig | e <;>
          rw [decode_found_eq d can_id data m hlk, hdec]
  · rcases db with _ | d
    · rfl
    · rcases hlk : d.getMessageByFrameId can_id with _ | m
      · rw [decode_missing_eq d can_id data hlk]
      · rcases hdec : m.decode data with sig | e <;>
          rw [decode_found_eq d can_id data m hlk, hdec]
  · rintro rfl; rfl
  · rintro d rfl hlk
    rw [decode_missing_eq d can_id data hlk]
  · rintro d m e rfl hlk hdec
    rw [decode_found_eq d can_id data m hlk, hdec]

/-- C6 counterexample: against a database whose lookup raises `KeyError`
with the id's text (as `cantools` does), the unknown-id record's `error`
is `"291"`, not `"id not in database"`; the latter string is produced
nowhere. -/
theorem decode_total_shape_cex :
    (decode_can_message (some missTestDb) 291 [1, 2, 3, 4, 5, 6, 7, 8]).error =
      some "291" ∧
    (some "291" : Option String) ≠ some "id not in database" := by
  exact ⟨rfl, by decide⟩

/-- C6 witness: the three shapes at concrete inputs. -/
theorem decode_total_shape_witness :
    decode_can_message none 5 [1] = ⟨5, "Raw", [], [1], some "No DBC file loaded"⟩ ∧
    decode_can_message (some missTestDb) 291 [2] =
      ⟨291, "Unknown", [], [2], some (missTestDb.lookupError 291)⟩ ∧
    decode_can_message (some failTestDb) 3 [2] =
      ⟨3, "Unknown", [], [2], some "boom"⟩ :=
  ⟨(decode_total_shape none 5 [1]).2.2.1 rfl,
   (decode_total_shape (some missTestDb) 291 [2]).2.2.2.1 missTestDb rfl rfl,
   (decode_total_shape (some failTestDb) 3 [2]).2.2.2.2 failTestDb
     ⟨"Msg3", fun _ => .error "boom"⟩ "boom" rfl rfl rfl⟩

/-- C7: the history bound — `appendRecord` (the shared
`append`/`pop(0)` snippet of `named_pipe_listener` and
`import_can_message`) preserves `len ≤ MESSAGE_HISTORY_LIMIT = 1000`, so
any sequence of appends starting from the empty history keeps
`len(CAN_MESSAGES) ≤ 1000` at all times. -/
theorem history_bound :
    (∀ (h : List DecodedRecord) (r : DecodedRecord),
        h.length ≤ 1000 → (appendRecord h r).length ≤ 1000) ∧
    ∀ rs : List DecodedRecord,
      ((rs.foldl appendRecord ([] : List DecodedRecord)).length ≤ 1000) := by
  have step : ∀ (h : List DecodedRecord) (r : DecodedRecord),
      h.length ≤ 1000 → (appendRecord h r).length ≤ 1000 := by
    intro h r hh
    simp only [appendRecord]
    split
    · simp only [List.length_tail, List.length_append, List.length_singleton]
      omega
    · rename_i hlt
      simp only [List.length_append, List.length_singleton] at hlt ⊢
      omega
  refine ⟨step, fun rs => ?_⟩
  have general : ∀ (h : List DecodedRecord), h.length ≤ 1000 →
      (rs.foldl appendRecord h).length ≤ 1000 := by
    induction rs with
    | nil => intro h hh; simpa using hh
    | cons r rs ih =>
        intro h hh
        simpa using ih _ (step h r hh)
  exact general [] (by simp)

/-- C7 witness: appending to a history already at the limit keeps the
bound. -/
theorem history_bound_witness :
    (appendRecord (List.replicate 1000 rec0) rec0).length ≤ 1000 :=
  history_bound.1 _ _ (by rw [List.length_replicate])

/-- C8: `sse_broadcast` backpressure isolation — the broadcast keeps
every registered subscription (same count, same order, no removal),
appends the payload to every subscription with queue space, and leaves a
full subscription's queue unchanged (that subscription stays registered
verbatim). -/
theorem sse_backpressure_isolation (clients : List Subscription) (payload : String) :
    (sse_broadcast clients payload).length = clients.length ∧
    sse_broadcast clients payload = clients.map (fun c =>
      if c.queue.length < 1000 then ⟨c.qid, c.queue ++ [payload]⟩ else c) ∧
    ∀ c ∈ clients, ¬ c.queue.length < 1000 → c ∈ sse_broadcast clients payload := by
  refine ⟨by simp [sse_broadcast], ?_, ?_⟩
  · unfold sse_broadcast putNowait
    refine List.map_congr_left ?_
    intro c _
    split <;> rfl
  · intro c hc hfull
    refine List.mem_map.mpr ⟨c, hc, ?_⟩
    simp [putNowait, hfull]

/-- C8 witness: with one empty-queue subscriber and one full subscriber,
the full subscriber survives the broadcast unchanged. -/
theorem sse_backpressure_isolation_witness :
    subB ∈ sse_broadcast [subA, subB] "m" :=
  (sse_backpressure_isolation [subA, subB] "m").2.2 subB
    (List.mem_cons_of_mem subA (List.mem_cons_self subB []))
    (by simp only [subB, List.length_replicate]; omega)

/-- When both fields are truthy, the admission check passes, so the
result is never the `Invalid data` 400. -/
lemma import_not_invalid (db : Option Database) (req : ImportReq)
    (h1 : truthyId req.id = true) (h2 : truthyData req.data = true) :
    import_can_message db req ≠ .invalidData := by
  unfold import_can_message
  rw [h1, h2]
  simp only [Bool.and_self, if_true]
  rcases hid : req.id with _ | iv
  · rw [hid] at h1
    exact absurd h1 (by decide)
  · rcases iv with n | s
    · simp
    · rcases hp : pyIntBase0 s with _ | cid
      · simp [hp]
      · rcases hb : pyBytes (req.data.getD []) with _ | bs <;> simp [hp, hb]

/-- When the truthiness conjunction fails, the result is the
`Invalid data` 400. -/
lemma import_invalid_of (db : Option Database) (req : ImportReq)
    (h : (truthyId req.id && truthyData req.data) = false) :
    import_can_message db req = .invalidData := by
  unfold import_can_message
  rw [h]
  rfl

/-- C10 (amended): `/api/import` answers 400 `"Invalid data"` exactly
when `"id"` or `"data"` is Python-falsy (`id` absent, the integer `0`,
or the empty string; `data` absent or the empty list).  The STRING
`"0"` is truthy, so a request with `id = "0"` is admitted, parses to CAN
id 0, and is imported — CAN id 0 can be imported in its string form. -/
theorem import_truthiness (db : Option Database) (req : ImportReq) :
    (import_can_message db req = .invalidData ↔
      (truthyId req.id = false ∨ truthyData req.data = false)) ∧
    truthyId (some (.str "0")) = true ∧
    (req.id = some (.str "0") → truthyData req.data = true →
      import_can_message db req =
        match pyBytes (req.data.getD []) with
        | some bs => .created (decode_can_message db 0 bs)
        | none => .decodingFailed) := by
  refine ⟨?_, rfl, ?_⟩
  · constructor
    · intro hinv
      cases h1 : truthyId req.id
      · exact Or.inl rfl
      · cases h2 : truthyData req.data
        · exact Or.inr rfl
        · exact absurd hinv (import_not_invalid db req h1 h2)
    · rintro (h | h)
      · exact import_invalid_of db req (by rw [h]; rfl)
      · exact import_invalid_of db req (by rw [h, Bool.and_false])
  · intro hid hdata
    rcases req with ⟨id, d, t⟩
    simp only at hid hdata
    subst hid
    unfold import_can_message
    dsimp only
    rw [hdata, Bool.and_true,
      show truthyId (some (IdVal.str "0")) = true from rfl, if_pos rfl]
    rcases hb : pyBytes (d.getD []) with _ | bs <;> rfl

/-- C10 counterexample: the claim says a request whose `"id"` is `"0"`
gets 400 `"Invalid data"` and that CAN id 0 can never be imported; in
fact `"0"` is truthy, so the request is imported with CAN id 0. -/
theorem import_id0_cex :
    import_can_message none reqId0Str =
      .created ⟨0, "Raw", [], [1, 2, 3, 4, 5, 6, 7, 8], some "No DBC file loaded"⟩ ∧
    import_can_message none reqId0Str ≠ .invalidData := by
  exact ⟨rfl, by decide⟩

/-- C10 witness: a request with absent id is rejected as invalid, and the
string-`"0"` request is created with CAN id 0. -/
theorem import_truthiness_witness :
    import_can_message none ⟨none, some [1], none⟩ = .invalidData ∧
    import_can_message none reqId0Str =
      .created (decode_can_message none 0 [1, 2, 3, 4, 5, 6, 7, 8]) := by
  constructor
  · exact (import_truthiness none ⟨none, some [1], none⟩).1.mpr (Or.inl rfl)
  · exact (import_truthiness none reqId0Str).2.2 rfl rfl

/-- The final truncation step of `update_table` is `take 100`. -/
lemma truncate100_eq (l : List QMsg) :
    (if 100 < l.length then l.take 100 else l) = l.take 100 := by
  split
  · rfl
  · rename_i h
    rw [List.take_of_length_le (by omega)]

/-- C9 (amended): `update_table` — `count` mode selects exactly the
newest `min(time_range, len(history))` records; for every mode the
result is reversed to newest-first order and truncated to 100 records
ALWAYS: there is no `limit` parameter, no 100 default, and no 500 cap in
the code. -/
theorem query_semantics_amended (messages : List QMsg) (time_range : ℕ)
    (tr0 : Option ℕ) (cid mn : Option String) (fm : Option FilterMode) (now : ℚ) :
    ((update_table messages tr0 cid mn fm now).length ≤ 100) ∧
    (1 ≤ time_range →
      update_table messages (some time_range) none none (some .count) now =
        (messages.reverse.take (min time_range messages.length)).take 100) := by
  constructor
  · unfold update_table
    dsimp only
    rw [truncate100_eq]
    simp only [List.length_take]
    omega
  · intro htr
    unfold update_table
    simp only [Option.getD_some]
    rw [if_neg (show ¬ time_range = 0 by omega),
        if_neg (show ¬ ((truthyStr (none : Option String) ||
          truthyStr (none : Option String)) = true) from by decide)]
    rw [truncate100_eq]
    congr 1
    rw [show messages.drop (messages.length - min time_range messages.length) =
          messages.rtake (min time_range messages.length) from rfl,
        List.rtake_eq_reverse_take_reverse, List.reverse_reverse]

/-- C9 counterexample: on a 150-record history in `all` mode, the code
returns 100 records, while the claimed limit semantics (limit up to 500)
would return all 150 for `limit = 300`. -/
theorem query_limit_cex :
    (update_table msgs150 none none none (some .all) 0).length = 100 ∧
    (specLimitQuery msgs150 none none none (some .all) 0 (some 300)).length = 150 ∧
    (100 : ℕ) ≠ 150 := by
  refine ⟨?_, ?_, by decide⟩
  · unfold update_table msgs150
    dsimp only
    simp [truthyStr, List.length_take]
  · unfold specLimitQuery msgs150
    dsimp only
    simp [truthyStr, List.length_take]

/-- C9 witness: `count` mode with `time_range = 1` on a two-record
history returns the single newest record. -/
theorem query_semantics_witness :
    update_table [⟨1, "A", 0, 0⟩, ⟨2, "B", 0, 0⟩] (some 1) none none
        (some FilterMode.count) 0 =
      (([⟨1, "A", 0, 0⟩, ⟨2, "B", 0, 0⟩] : List QMsg).reverse.take
        (min 1 ([⟨1, "A", 0, 0⟩, ⟨2, "B", 0, 0⟩] : List QMsg).length)).take 100 :=
  (query_semantics_amended [⟨1, "A", 0, 0⟩, ⟨2, "B", 0, 0⟩] 1 none none none
    none 0).2 (by omega)

/-- The frame-extraction loop yields `min count ⌊(len − offset)/20⌋`
chunks. -/
lemma chunkLoop_length (data : List ℕ) :
    ∀ (c off : ℕ), (chunkLoop data off c).length = min c ((data.length - off) / 20) := by
  intro c
  induction c with
  | zero => intro off; simp [chunkLoop]
  | succ n ih =>
      intro off
      rw [chunkLoop]
      split
      · rename_i h
        simp only [List.length_nil]
        omega
      · rename_i h
        simp only [List.length_cons, ih (off + 20)]
        omega

/-- Every chunk the extraction loop yields is a full 20-byte slice. -/
lemma chunkLoop_chunk_len (data : List ℕ) :
    ∀ (c off : ℕ), ∀ x ∈ chunkLoop data off c, x.length = 20 := by
  intro c
  induction c with
  | zero => intro off x hx; simp [chunkLoop] at hx
  | succ n ih =>
      intro off x hx
      rw [chunkLoop] at hx
      split at hx
      · simp at hx
      · rename_i h
        rcases List.mem_cons.mp hx with rfl | hx'
        · simp only [List.length_take, List.length_drop]
          omega
        · exact ih (off + 20) x hx'

/-- C2 (amended): `udp_receiver` drops exactly the datagrams shorter
than 10 bytes.  A datagram whose length differs from `10 + 20·count` is
NOT dropped: its header still updates the gap state (anchoring /
advancing `expected_seq`), and `min(count, ⌊(len−10)/20⌋)` full 20-byte
frames are decoded from it. -/
theorem malformed_handling (st : RecvState) (D : List ℕ) :
    (D.length < 10 → recvStep st D = (st, [])) ∧
    (10 ≤ D.length →
      (recvStep st D).1.expected =
        some (max (st.expected.getD (seqOf D)) (seqOf D + 1)) ∧
      (recvStep st D).2.length = min (countOf D) ((D.length - 10) / 20) ∧
      ∀ c ∈ (recvStep st D).2, c.length = 20) := by
  constructor
  · intro h
    simp [recvStep, h]
  · intro h
    have hlt : ¬ D.length < 10 := by omega
    refine ⟨?_, ?_, ?_⟩
    · simp [recvStep, hlt, seqStep]
    · simp [recvStep, hlt, chunkLoop_length]
    · intro c hc
      simp only [recvStep, hlt, if_false] at hc
      exact chunkLoop_chunk_len D (countOf D) 10 c hc

/-- C2 counterexample: the 10-byte datagram with `count = 1` has length
`10 ≠ 10 + 20·1`, yet the receiver processes it — the gap state changes
(`expected_seq` becomes 2) instead of the datagram being dropped. -/
theorem malformed_rejection_cex :
    shortCountDatagram.length = 10 ∧
    shortCountDatagram.length ≠ 10 + 20 * countOf shortCountDatagram ∧
    (recvStep freshRecv shortCountDatagram).1.expected = some 2 ∧
    (recvStep freshRecv shortCountDatagram).1 ≠ freshRecv := by
  decide

/-- C2 witness: a short datagram is dropped verbatim; the well-formed
30-byte datagram decodes its single frame. -/
theorem malformed_handling_witness :
    recvStep freshRecv [1, 2, 3] = (freshRecv, []) ∧
    (recvStep freshRecv dupDatagram).2.length =
      min (countOf dupDatagram) ((dupDatagram.length - 10) / 20) := by
  constructor
  · exact (malformed_handling freshRecv [1, 2, 3]).1 (by decide)
  · exact ((malformed_handling freshRecv dupDatagram).2 (by decide)).2.1

/-- A second delivery of the same datagram leaves the gap state fixed:
`expected` is already past `seq`, so no gap opens, and the erase is
idempotent. -/
lemma seqStep_idem (st : RecvState) (q : ℕ) :
    seqStep (seqStep st q) q = seqStep st q := by
  rcases st with ⟨exp, miss⟩
  unfold seqStep
  dsimp only [Option.getD_some]
  rw [if_neg (show ¬ max ((exp).getD q) (q + 1) < q from by omega)]
  simp only [RecvState.mk.injEq]
  exact ⟨congrArg some (by omega), Finset.erase_idem⟩

/-- Redelivering a datagram reproduces the same state and the same
output. -/
lemma recvStep_fixpoint (st : RecvState) (D : List ℕ) :
    recvStep (recvStep st D).1 D = recvStep st D := by
  by_cases h : D.length < 10
  · simp [recvStep, h]
  · simp [recvStep, h, seqStep_idem]

/-- Folding further copies of `D` from a fixed point appends one output
per copy. -/
lemma recvMany_fixed (D : List ℕ) (st1 : RecvState)
    (h : (recvStep st1 D).1 = st1) :
    ∀ (k : ℕ) (acc : List (List (List ℕ))),
      (List.replicate k D).foldl recvManyStep (st1, acc) =
        (st1, acc ++ if (recvStep st1 D).2.isEmpty then []
                     else List.replicate k (recvStep st1 D).2) := by
  intro k
  induction k with
  | zero => intro acc; simp
  | succ n ih =>
      intro acc
      rw [List.replicate_succ, List.foldl_cons]
      have hstep : recvManyStep (st1, acc) D =
          (st1, if (recvStep st1 D).2.isEmpty then acc
                else acc ++ [(recvStep st1 D).2]) := by
        unfold recvManyStep
        dsimp only
        rw [h]
      rw [hstep]
      by_cases he : (recvStep st1 D).2.isEmpty
      · rw [if_pos he, ih acc, if_pos he, if_pos he]
      · rw [if_neg he, ih (acc ++ [(recvStep st1 D).2]), if_neg he, if_neg he,
            List.append_assoc, List.replicate_succ]
        exact rfl

/-- C1 (amended): delivering the same datagram `D` to `udp_receiver`
`N ≥ 1` times yields the same receiver state (expected sequence and
missing set) as delivering it once — but the decoded frames are
published on EVERY delivery: the downstream output is the batch repeated
`N` times, not once, because the receiver has no duplicate filter on the
publish path. -/
theorem duplicate_delivery_state_idempotent (st : RecvState) (D : List ℕ)
    (n : ℕ) (h : 1 ≤ n) :
    (recvMany st (List.replicate n D)).1 = (recvStep st D).1 ∧
    (recvMany st (List.replicate n D)).2 =
      if (recvStep st D).2.isEmpty then []
      else List.replicate n (recvStep st D).2 := by
  rcases n with _ | m
  · omega
  · have hfix : (recvStep (recvStep st D).1 D).1 = (recvStep st D).1 := by
      rw [recvStep_fixpoint]
    have hout : (recvStep (recvStep st D).1 D).2 = (recvStep st D).2 := by
      rw [recvStep_fixpoint]
    have hstep1 : recvManyStep ((st, []) : RecvState × List (List (List ℕ))) D =
        ((recvStep st D).1,
          if (recvStep st D).2.isEmpty then [] else [(recvStep st D).2]) := by
      unfold recvManyStep
      dsimp only
      rw [List.nil_append]
    have hmain : recvMany st (List.replicate (m + 1) D) =
        ((recvStep st D).1,
          (if (recvStep st D).2.isEmpty then [] else [(recvStep st D).2]) ++
            if (recvStep st D).2.isEmpty then []
            else List.replicate m (recvStep st D).2) := by
      unfold recvMany
      rw [List.replicate_succ, List.foldl_cons, hstep1,
          recvMany_fixed D _ hfix m, hout]
    by_cases he : (recvStep st D).2.isEmpty
    · rw [hmain, if_pos he, if_pos he, if_pos he]
      exact ⟨rfl, rfl⟩
    · rw [hmain, if_neg he, if_neg he, if_neg he, List.replicate_succ]
      exact ⟨rfl, rfl⟩

/-- C1 counterexample: delivering the same well-formed datagram twice
publishes its frames twice — the downstream output differs from a single
delivery, where the claim says the duplicate is silently ignored and
publishes nothing. -/
theorem duplicate_delivery_cex :
    (recvMany freshRecv [dupDatagram, dupDatagram]).2 ≠
      (recvMany freshRecv [dupDatagram]).2 := by
  decide

/-- C1 witness: two deliveries of the concrete datagram reach the same
state as one, with the output repeated twice. -/
theorem duplicate_delivery_witness :
    (recvMany freshRecv (List.replicate 2 dupDatagram)).1 =
      (recvStep freshRecv dupDatagram).1 ∧
    (recvMany freshRecv (List.replicate 2 dupDatagram)).2 =
      if (recvStep freshRecv dupDatagram).2.isEmpty then []
      else List.replicate 2 (recvStep freshRecv dupDatagram).2 :=
  duplicate_delivery_state_idempotent freshRecv dupDatagram 2 (by omega)

/-- After the front-eviction loop runs at time `now` on a time-sorted
ring, every surviving entry is at most 60 s old. -/
lemma sweepOld_age (now : ℚ) :
    ∀ (l : List RingEntry),
      l.Pairwise (fun a b => a.inserted ≤ b.inserted) →
      ∀ x ∈ sweepOld l now, now - x.inserted ≤ 60 := by
  intro l
  induction l with
  | nil => intro _ x hx; simp [sweepOld] at hx
  | cons e rest ih =>
      intro hp x hx
      simp only [sweepOld] at hx
      split at hx
      · exact ih (List.pairwise_cons.mp hp).2 x hx
      · rename_i hne
        rcases List.mem_cons.mp hx with rfl | hx'
        · linarith [not_lt.mp hne]
        · have hle := (List.pairwise_cons.mp hp).1 x hx'
          have := not_lt.mp hne
          linarith

/-- C3 (amended): the ring is swept ONLY on the sender's emission path,
so the age bound holds relative to emissions: immediately after each
`emitRetain` at wall time `now` (ring entries inserted in time order, at
or before `now`), every retained entry is at most `RingAge = 60` s old.
Between emissions nothing sweeps, and `handle_resend` looks up the ring
without sweeping, so a lookup served while the sender is idle can return
arbitrarily old entries. -/
theorem ring_age_bound_at_emission (buf : List RingEntry) (seq : ℕ)
    (batch : List CANMessage) (now : ℚ)
    (hsorted : buf.Pairwise (fun a b => a.inserted ≤ b.inserted))
    (hpast : ∀ e ∈ buf, e.inserted ≤ now) :
    ∀ x ∈ emitRetain buf seq batch now, now - x.inserted ≤ 60 := by
  have hp : List.Pairwise (fun a b : RingEntry => a.inserted ≤ b.inserted)
      (buf ++ [RingEntry.mk seq batch now]) := by
    rw [List.pairwise_append]
    refine ⟨hsorted, by simp, ?_⟩
    intro a ha b hb
    rcases List.mem_singleton.mp hb with rfl
    exact hpast a ha
  exact fun x hx => sweepOld_age now _ hp x hx

/-- C3 counterexample: one batch is retained at wall time 0 and the
sender never emits again, so nothing ever sweeps; a resend request for
sequence 1 served at any later wall time (say 10000 s) still returns the
batch, whose age 10000 far exceeds `RingAge + one sweep tick = 61` — the
claimed bound fails precisely because `handle_resend` performs no sweep
and the claim's "regardless of whether the sender has emitted" does not
hold. -/
theorem ring_age_cex :
    lookupRing (emitRetain [] 1 [msg0] 0) 1 = some [msg0] ∧
    serveResend (emitRetain [] 1 [msg0] 0) [1] = [(1, [encodeMsg msg0])] ∧
    (10000 : ℚ) - 0 > 60 + 1 := by
  have hbuf : emitRetain [] 1 [msg0] 0 = [⟨1, [msg0], 0⟩] := by
    unfold emitRetain
    rw [List.nil_append]
    simp only [sweepOld]
    rw [if_neg (show ¬ (60 : ℚ) <
      0 - (RingEntry.mk 1 [msg0] 0).inserted from by norm_num)]
  refine ⟨?_, ?_, by norm_num⟩
  · rw [hbuf]; decide
  · rw [hbuf]; decide

/-- C3 witness: emitting at time 100 over a ring holding a stale entry
from time 0 sweeps it; the surviving entry is the fresh one, aged 0. -/
theorem ring_age_bound_witness :
    (100 : ℚ) - (RingEntry.mk 2 [] 100).inserted ≤ 60 := by
  have hmem : RingEntry.mk 2 [] 100 ∈ emitRetain [⟨1, [], 0⟩] 2 [] 100 := by
    have hrun : emitRetain [⟨1, [], 0⟩] 2 [] 100 = [⟨2, [], 100⟩] := by
      unfold emitRetain
      rw [List.singleton_append]
      simp only [sweepOld]
      rw [if_pos (show (60 : ℚ) <
            100 - (RingEntry.mk 1 [] 0).inserted from by norm_num),
          if_neg (show ¬ (60 : ℚ) <
            100 - (RingEntry.mk 2 [] 100).inserted from by norm_num)]
    rw [hrun]
    exact List.mem_singleton.mpr rfl
  exact ring_age_bound_at_emission [⟨1, [], 0⟩] 2 [] 100
    (by simp) (by intro e he; rw [List.mem_singleton.mp he]; norm_num)
    ⟨2, [], 100⟩ hmem

/-- A hex digit round-trips through encode/decode. -/
lemma hexVal_hexDigit (n : ℕ) (h : n < 16) : hexVal (hexDigit n) = n := by
  interval_cases n <;> decide

/-- One byte's two hex digits decode back to the byte. -/
lemma hexToBytes_byteToHex (b : ℕ) (hb : b < 256) (rest : List Char) :
    hexToBytes (byteToHex b ++ rest) = b :: hexToBytes rest := by
  show hexToBytes (hexDigit (b / 16) :: hexDigit (b % 16) :: rest) = _
  rw [hexToBytes]
  rw [hexVal_hexDigit _ (by omega), hexVal_hexDigit _ (by omega)]
  congr 1
  omega

/-- `bytes.fromhex (data.hex())` is the identity on byte lists. -/
lemma hexToBytes_bytesToHex (bs : List ℕ) (h : ∀ b ∈ bs, b < 256) :
    hexToBytes (bytesToHex bs) = bs := by
  induction bs with
  | nil => rfl
  | cons b rest ih =>
      rw [show bytesToHex (b :: rest) = byteToHex b ++ bytesToHex rest from rfl]
      rw [hexToBytes_byteToHex b (h b (by simp)) (bytesToHex rest)]
      rw [ih (fun x hx => h x (by simp [hx]))]

/-- Decoding a server-encoded frame yields exactly the record the direct
delivery path would have published for it. -/
lemma decode_encode (m : CANMessage) (h : ∀ b ∈ m.data, b < 256) :
    decodeClientMsg (encodeMsg m) = publishedMsg m := by
  unfold decodeClientMsg encodeMsg publishedMsg
  dsimp only
  rw [hexToBytes_bytesToHex m.data h]

/-- `clientStep` on a still-missing sequence: publish and erase. -/
lemma clientStep_pos (m : Finset ℕ) (out : List (List PubRec))
    (r : ℕ × List ResendMsg) (h : r.1 ∈ m) :
    clientStep (m, out) r = (m.erase r.1, out ++ [r.2.map decodeClientMsg]) := by
  unfold clientStep
  dsimp only
  rw [if_pos h]

/-- `clientStep` on a sequence no longer missing: no-op. -/
lemma clientStep_neg (m : Finset ℕ) (out : List (List PubRec))
    (r : ℕ × List ResendMsg) (h : r.1 ∉ m) :
    clientStep (m, out) r = (m, out) := by
  unfold clientStep
  dsimp only
  rw [if_neg h]

/-- Already-collected outputs survive the rest of the response loop. -/
lemma clientProcess_out_mono (rs : List (ℕ × List ResendMsg)) :
    ∀ (m : Finset ℕ) (out : List (List PubRec)) (x : List PubRec),
      x ∈ out → x ∈ (rs.foldl clientStep (m, out)).2 := by
  induction rs with
  | nil => intro m out x hx; simpa using hx
  | cons r rest ih =>
      intro m out x hx
      rw [List.foldl_cons]
      by_cases hr : r.1 ∈ m
      · rw [clientStep_pos m out r hr]
        exact ih _ _ x (by simp [hx])
      · rw [clientStep_neg m out r hr]
        exact ih _ _ x hx

/-- After the response loop, the missing set is exactly the old missing
set minus every sequence the response carried. -/
lemma clientProcess_missing (rs : List (ℕ × List ResendMsg)) :
    ∀ (m : Finset ℕ) (out : List (List PubRec)),
      (rs.foldl clientStep (m, out)).1 = m \ (rs.map Prod.fst).toFinset := by
  induction rs with
  | nil => intro m out; simp
  | cons r rest ih =>
      intro m out
      rw [List.foldl_cons]
      by_cases hr : r.1 ∈ m
      · rw [clientStep_pos m out r hr, ih]
        ext x
        simp only [Finset.mem_sdiff, Finset.mem_erase, List.map_cons,
          List.toFinset_cons, Finset.mem_insert]
        constructor
        · rintro ⟨⟨hne, hxm⟩, hns⟩
          exact ⟨hxm, fun hc => hc.elim hne hns⟩
        · rintro ⟨hxm, hn⟩
          exact ⟨⟨fun hc => hn (Or.inl hc), hxm⟩, fun hc => hn (Or.inr hc)⟩
      · rw [clientStep_neg m out r hr, ih]
        ext x
        simp only [Finset.mem_sdiff, List.map_cons, List.toFinset_cons,
          Finset.mem_insert]
        constructor
        · rintro ⟨hxm, hns⟩
          refine ⟨hxm, fun hc => ?_⟩
          rcases hc with rfl | hc
          · exact hr hxm
          · exact hns hc
        · rintro ⟨hxm, hn⟩
          exact ⟨hxm, fun hc => hn (Or.inr hc)⟩

/-- If the response contains a (unique) entry for a still-missing
sequence, its decoded frame list is among the injected outputs. -/
lemma clientProcess_inject (rs : List (ℕ × List ResendMsg)) (S : ℕ)
    (E : List ResendMsg) :
    ∀ (m : Finset ℕ) (out : List (List PubRec)),
      S ∈ m → (S, E) ∈ rs → (∀ p ∈ rs, p.1 = S → p.2 = E) →
      (E.map decodeClientMsg) ∈ (rs.foldl clientStep (m, out)).2 := by
  induction rs with
  | nil => intro m out _ hmem _; simp at hmem
  | cons r rest ih =>
      intro m out hS hmem huniq
      rw [List.foldl_cons]
      by_cases hr1 : r.1 = S
      · have hrE : r.2 = E := huniq r (by simp) hr1
        have hr : r.1 ∈ m := by rw [hr1]; exact hS
        rw [clientStep_pos m out r hr]
        refine clientProcess_out_mono rest _ _ _ ?_
        rw [hrE]
        simp
      · have hmem' : (S, E) ∈ rest := by
          rcases List.mem_cons.mp hmem with heq | h
          · exact absurd (congrArg Prod.fst heq.symm) hr1
          · exact h
        have huniq' : ∀ p ∈ rest, p.1 = S → p.2 = E :=
          fun p hp hps => huniq p (by simp [hp]) hps
        by_cases hr : r.1 ∈ m
        · rw [clientStep_pos m out r hr]
          exact ih _ _ (Finset.mem_erase.mpr
            ⟨fun hc => hr1 (by rw [hc]), hS⟩) hmem' huniq'
        · rw [clientStep_neg m out r hr]
          exact ih _ _ hS hmem' huniq'

/-- C5: recovery soundness — for every sequence `S` still present in the
sender's ring when a resend request containing `S` is served, the frames
the client injects for `S` (hex-encoded by `handle_resend`, decoded with
`bytes.fromhex`) are exactly the published form of the frames originally
placed in batch `S` (the same `int(t*1000)` timestamps, CAN ids, and
8-byte payloads the direct delivery path would publish); the final
missing set is the old one minus the sequences the response carried, so
`S` is removed precisely when the response holds an entry for `S` and
`S` was still missing. -/
theorem recovery_soundness (buf : List RingEntry) (req : List ℕ)
    (missing : Finset ℕ) (S : ℕ) (batch : List CANMessage)
    (hlk : lookupRing buf S = some batch) (hreq : S ∈ req) (hmiss : S ∈ missing)
    (hbytes : ∀ m ∈ batch, ∀ b ∈ m.data, b < 256) :
    (batch.map publishedMsg) ∈ (clientProcess missing (serveResend buf req)).2 ∧
    (clientProcess missing (serveResend buf req)).1 =
      missing \ ((serveResend buf req).map Prod.fst).toFinset ∧
    S ∉ (clientProcess missing (serveResend buf req)).1 := by
  have hmemS : (S, batch.map encodeMsg) ∈ serveResend buf req := by
    unfold serveResend
    refine List.mem_filterMap.mpr ⟨S, hreq, ?_⟩
    rw [hlk]
    rfl
  have huniq : ∀ p ∈ serveResend buf req, p.1 = S → p.2 = batch.map encodeMsg := by
    intro p hp hpS
    unfold serveResend at hp
    rcases List.mem_filterMap.mp hp with ⟨x, _, hfx⟩
    rcases hxl : lookupRing buf x with _ | b
    · rw [hxl] at hfx
      cases hfx
    · rw [hxl] at hfx
      rw [show Option.map (fun b => (x, List.map encodeMsg b)) (some b) =
        some (x, List.map encodeMsg b) from rfl] at hfx
      have hpx := Option.some.inj hfx
      have hx1 : x = S := by rw [← hpx] at hpS; exact hpS
      rw [hx1] at hxl
      rw [hlk] at hxl
      have hb : b = batch := (Option.some.inj hxl).symm
      rw [← hpx, hb]
  have hinj : (batch.map encodeMsg).map decodeClientMsg ∈
      (clientProcess missing (serveResend buf req)).2 :=
    clientProcess_inject _ S _ missing [] hmiss hmemS huniq
  have hmapeq : (batch.map encodeMsg).map decodeClientMsg =
      batch.map publishedMsg := by
    rw [List.map_map]
    refine List.map_congr_left ?_
    intro m hm
    exact decode_encode m (hbytes m hm)
  have hm1 : (clientProcess missing (serveResend buf req)).1 =
      missing \ ((serveResend buf req).map Prod.fst).toFinset :=
    clientProcess_missing _ missing []
  refine ⟨hmapeq ▸ hinj, hm1, ?_⟩
  rw [hm1]
  intro hc
  rcases Finset.mem_sdiff.mp hc with ⟨_, hnot⟩
  exact hnot (List.mem_toFinset.mpr
    (List.mem_map.mpr ⟨(S, batch.map encodeMsg), hmemS, rfl⟩))

/-- C5 witness: serving a request for sequence 7 against the concrete
ring removes 7 from the missing set. -/
theorem recovery_soundness_witness :
    (7 : ℕ) ∉ (clientProcess {7} (serveResend buf7 [7])).1 :=
  (recovery_soundness buf7 [7] {7} 7 batch7 (by decide) (by decide)
    (by decide) (by decide)).2.2

/-- The eviction check does not fire while the missing set stays within
the 1000-element bound. -/
lemma addMissing_no_evict (m : Finset ℕ) (s : ℕ)
    (h : (insert s m).card ≤ 1000) : addMissing m s = insert s m := by
  unfold addMissing
  dsimp only
  rw [dif_neg (by omega)]

/-- Within the cardinality bound, the gap-insertion loop adds exactly
the half-open interval of skipped sequences. -/
lemma addGapRange_eq (m : Finset ℕ) (lo hi : ℕ)
    (h : (m ∪ Finset.Ico lo hi).card ≤ 1000) :
    addGapRange m lo hi = m ∪ Finset.Ico lo hi := by
  rcases le_or_lt lo hi with hle | hlt
  · obtain ⟨n, rfl⟩ : ∃ n, hi = lo + n := ⟨hi - lo, by omega⟩
    clear hle
    revert h
    induction n with
    | zero =>
        intro h
        unfold addGapRange
        rw [show lo + 0 - lo = 0 by omega]
        simp
    | succ k ihk =>
        intro h
        have hsubk : (m ∪ Finset.Ico lo (lo + k)) ⊆
            (m ∪ Finset.Ico lo (lo + (k + 1))) := by
          intro x hx
          simp only [Finset.mem_union, Finset.mem_Ico] at hx ⊢
          rcases hx with hx | hx
          · exact Or.inl hx
          · exact Or.inr (by omega)
        have hk := ihk (le_trans (Finset.card_le_card hsubk) h)
        unfold addGapRange at hk ⊢
        rw [show lo + k - lo = k by omega] at hk
        rw [show lo + (k + 1) - lo = k + 1 by omega, List.range_succ,
          List.foldl_append, List.foldl_cons, List.foldl_nil, hk]
        have hset : insert (lo + k) (m ∪ Finset.Ico lo (lo + k)) =
            m ∪ Finset.Ico lo (lo + (k + 1)) := by
          ext x
          simp only [Finset.mem_insert, Finset.mem_union, Finset.mem_Ico]
          by_cases hxm : x ∈ m <;> simp [hxm] <;> omega
        have hins : (insert (lo + k) (m ∪ Finset.Ico lo (lo + k))).card ≤ 1000 := by
          rw [hset]
          exact h
        rw [addMissing_no_evict _ _ hins, hset]
  · unfold addGapRange
    rw [show hi - lo = 0 by omega]
    rw [show Finset.Ico lo hi = ∅ from Finset.Ico_eq_empty (by omega)]
    simp

/-- Receiver gap invariant, threaded over an anchored run.  After the
receiver is anchored with `expected = M + 1` (every sequence up to `M`
is either delivered — collected in the ghost set `P` — or recorded
missing), processing further sequences in `[f, f + 1000]` keeps:
`expected` one past the running maximum, the missing set inside
`(f, max]`, and `missing ∪ delivered = [f, max]`. -/
lemma seqRun_invariant (ss : List ℕ) :
    ∀ (f M : ℕ) (miss P : Finset ℕ),
      f ≤ M → M ≤ f + 1000 →
      (∀ s ∈ ss, f ≤ s ∧ s ≤ f + 1000) →
      miss ⊆ Finset.Icc (f + 1) M →
      miss ∪ P = Finset.Icc f M →
      ((ss.foldl seqStep ⟨some (M + 1), miss⟩).expected =
          some (ss.foldl max M + 1) ∧
        (ss.foldl seqStep ⟨some (M + 1), miss⟩).missing ⊆
          Finset.Icc (f + 1) (ss.foldl max M) ∧
        (ss.foldl seqStep ⟨some (M + 1), miss⟩).missing ∪ (P ∪ ss.toFinset) =
          Finset.Icc f (ss.foldl max M)) := by
  induction ss with
  | nil =>
      intro f M miss P hfM hM hss hsub hunion
      refine ⟨rfl, hsub, ?_⟩
      simpa using hunion
  | cons s ss ih =>
      intro f M miss P hfM hM hss hsub hunion
      obtain ⟨hfs, hs1000⟩ := hss s (by simp)
      have hss' : ∀ t ∈ ss, f ≤ t ∧ t ≤ f + 1000 :=
        fun t ht => hss t (by simp [ht])
      simp only [List.foldl_cons, List.toFinset_cons]
      have hPswap : ∀ T : Finset ℕ, P ∪ insert s T = (P ∪ {s}) ∪ T := by
        intro T
        ext x
        simp only [Finset.mem_union, Finset.mem_insert, Finset.mem_singleton]
        tauto
      by_cases hA : s ≤ M
      · have hmax : max M s = M := by omega
        have hst : seqStep ⟨some (M + 1), miss⟩ s = ⟨some (M + 1), miss.erase s⟩ := by
          unfold seqStep
          dsimp only [Option.getD_some]
          rw [if_neg (show ¬ M + 1 < s by omega)]
          simp only [RecvState.mk.injEq]
          exact ⟨congrArg some (by omega), trivial⟩
        rw [hmax, hst]
        have hsub' : miss.erase s ⊆ Finset.Icc (f + 1) M :=
          fun x hx => hsub (Finset.mem_of_mem_erase hx)
        have hunion' : miss.erase s ∪ (P ∪ {s}) = Finset.Icc f M := by
          ext x
          have hx := Finset.ext_iff.mp hunion x
          simp only [Finset.mem_union, Finset.mem_erase, Finset.mem_singleton,
            Finset.mem_Icc] at hx ⊢
          by_cases hxm : x ∈ miss <;> by_cases hxp : x ∈ P <;>
            simp [hxm, hxp] at hx ⊢ <;> omega
        obtain ⟨h1, h2, h3⟩ := ih f M (miss.erase s) (P ∪ {s}) hfM hM hss'
          hsub' hunion'
        refine ⟨h1, h2, ?_⟩
        rw [hPswap ss.toFinset]
        exact h3
      · by_cases hB : s = M + 1
        · subst hB
          have hsm : M + 1 ∉ miss := by
            intro hc
            have := hsub hc
            simp only [Finset.mem_Icc] at this
            omega
          have hst : seqStep ⟨some (M + 1), miss⟩ (M + 1) =
              ⟨some (M + 1 + 1), miss⟩ := by
            unfold seqStep
            dsimp only [Option.getD_some]
            rw [if_neg (lt_irrefl (M + 1))]
            simp only [RecvState.mk.injEq]
            exact ⟨congrArg some (by omega), Finset.erase_eq_of_not_mem hsm⟩
          have hmax : max M (M + 1) = M + 1 := by omega
          rw [hmax, hst]
          have hsub' : miss ⊆ Finset.Icc (f + 1) (M + 1) := by
            intro x hx
            have := hsub hx
            simp only [Finset.mem_Icc] at this ⊢
            omega
          have hunion' : miss ∪ (P ∪ {M + 1}) = Finset.Icc f (M + 1) := by
            ext x
            have hx := Finset.ext_iff.mp hunion x
            simp only [Finset.mem_union, Finset.mem_singleton,
              Finset.mem_Icc] at hx ⊢
            by_cases hxm : x ∈ miss <;> by_cases hxp : x ∈ P <;>
              simp [hxm, hxp] at hx ⊢ <;> omega
          obtain ⟨h1, h2, h3⟩ := ih f (M + 1) miss (P ∪ {M + 1}) (by omega)
            (by omega) hss' hsub' hunion'
          refine ⟨h1, h2, ?_⟩
          rw [hPswap ss.toFinset]
          exact h3
        · have hgap : M + 1 < s := by omega
          have hcardIco : (miss ∪ Finset.Ico (M + 1) s).card ≤ 1000 := by
            have hsubIcc : (miss ∪ Finset.Ico (M + 1) s) ⊆
                Finset.Icc (f + 1) (s - 1) := by
              intro x hx
              rcases Finset.mem_union.mp hx with hx | hx
              · have := hsub hx
                simp only [Finset.mem_Icc] at this ⊢
                omega
              · simp only [Finset.mem_Ico] at hx
                simp only [Finset.mem_Icc]
                omega
            calc (miss ∪ Finset.Ico (M + 1) s).card
                ≤ (Finset.Icc (f + 1) (s - 1)).card := Finset.card_le_card hsubIcc
              _ = s - 1 + 1 - (f + 1) := Nat.card_Icc _ _
              _ ≤ 1000 := by omega
          have hsnotin : s ∉ miss ∪ Finset.Ico (M + 1) s := by
            intro hc
            rcases Finset.mem_union.mp hc with hc | hc
            · have := hsub hc
              simp only [Finset.mem_Icc] at this
              omega
            · simp only [Finset.mem_Ico] at hc
              omega
          have hst : seqStep ⟨some (M + 1), miss⟩ s =
              ⟨some (s + 1), miss ∪ Finset.Ico (M + 1) s⟩ := by
            unfold seqStep
            dsimp only [Option.getD_some]
            rw [if_pos hgap, addGapRange_eq miss (M + 1) s hcardIco]
            simp only [RecvState.mk.injEq]
            exact ⟨congrArg some (by omega),
              Finset.erase_eq_of_not_mem hsnotin⟩
          have hmax : max M s = s := by omega
          rw [hmax, hst]
          have hsub' : miss ∪ Finset.Ico (M + 1) s ⊆ Finset.Icc (f + 1) s := by
            intro x hx
            rcases Finset.mem_union.mp hx with hx | hx
            · have := hsub hx
              simp only [Finset.mem_Icc] at this ⊢
              omega
            · simp only [Finset.mem_Ico] at hx
              simp only [Finset.mem_Icc]
              omega
          have hunion' : (miss ∪ Finset.Ico (M + 1) s) ∪ (P ∪ {s}) =
              Finset.Icc f s := by
            ext x
            have hx := Finset.ext_iff.mp hunion x
            simp only [Finset.mem_union, Finset.mem_singleton, Finset.mem_Ico,
              Finset.mem_Icc] at hx ⊢
            by_cases hxm : x ∈ miss <;> by_cases hxp : x ∈ P <;>
              simp [hxm, hxp] at hx ⊢ <;> omega
          obtain ⟨h1, h2, h3⟩ := ih f s (miss ∪ Finset.Ico (M + 1) s)
            (P ∪ {s}) (by omega) (by omega) hss' hsub' hunion'
          refine ⟨h1, h2, ?_⟩
          rw [hPswap ss.toFinset]
          exact h3

/-- C4 (amended): after the receiver processes well-formed datagrams
whose sequences are `f` (the FIRST one, which anchors `expected_seq`)
followed by further sequences all in `[f, f + 1000]` (so no MissingMax
eviction fires), the union of the delivered sequences and the missing
set equals the interval `[f, max sᵢ]` — the interval starts at the first
received sequence, not at 1, because sequences below the anchor are
never tracked. -/
theorem gap_union_amended (f : ℕ) (ss : List ℕ)
    (hbound : ∀ s ∈ ss, f ≤ s ∧ s ≤ f + 1000) :
    ((f :: ss).foldl seqStep freshRecv).missing ∪ (f :: ss).toFinset =
      Finset.Icc f (ss.foldl max f) ∧
    ((f :: ss).foldl seqStep freshRecv).expected = some (ss.foldl max f + 1) := by
  have hfirst : seqStep freshRecv f = ⟨some (f + 1), ∅⟩ := by
    unfold seqStep freshRecv
    dsimp only [Option.getD_none]
    rw [if_neg (lt_irrefl f)]
    simp only [RecvState.mk.injEq]
    exact ⟨congrArg some (by omega), Finset.erase_empty f⟩
  obtain ⟨h1, h2, h3⟩ := seqRun_invariant ss f f ∅ {f} (le_refl f) (by omega)
    hbound (by simp) (by simp)
  rw [List.foldl_cons, hfirst]
  constructor
  · rw [List.toFinset_cons, Finset.insert_eq]
    exact h3
  · exact h1

/-- C4 counterexample: a single well-formed datagram with sequence 2
(header-only, count 0) leaves the missing set empty — nothing was
evicted — yet `delivered ∪ missing = {2}` is not `[1, 2]`: sequence 1 is
never recorded because the receiver anchors on the first sequence it
sees, not on 1. -/
theorem gap_union_cex :
    (recvMany freshRecv [headerOnlyDatagram]).1.missing = ∅ ∧
    seqOf headerOnlyDatagram = 2 ∧
    (recvMany freshRecv [headerOnlyDatagram]).1.missing ∪
        {seqOf headerOnlyDatagram} ≠
      Finset.Icc 1 (seqOf headerOnlyDatagram) := by
  decide

/-- C4 witness: processing sequences 1 then 3 leaves `missing = {2}` and
`delivered ∪ missing = [1, 3]`. -/
theorem gap_union_witness :
    (((1 : ℕ) :: [3]).foldl seqStep freshRecv).missing ∪
        ((1 : ℕ) :: [3]).toFinset =
      Finset.Icc 1 ([3].foldl max 1) ∧
    (((1 : ℕ) :: [3]).foldl seqStep freshRecv).expected =
      some ([3].foldl max 1 + 1) :=
  gap_union_amended 1 [3] (by decide)

end DaqRadio
